import Mathlib

/-!
Verification of the key-extraction / YAML-diff engine and the pipeline
orchestration of the yaml-helm-pipeline repository.

The Go sources embedded here:
  * internal/extractor/service.go : ExtractKeys, CompareYAML,
    extractKeysRecursive, findDifferences, compareArrays
  * internal/api/routes.go        : processConfigGroup, PreviewChanges,
    CommitChanges and their helpers
  * internal/config/config.go     : the ConfigGroup data model, GetRepoURL

Modelling conventions:
  * Go's `map[string]interface\x7b\x7d` (a parsed YAML mapping) is modelled as an
    association list `List (String × Value)`.  A list with `Nodup` keys
    represents a Go map; Go's random iteration order is determinized to the
    list order (the code under study only ever builds one result map from the
    iteration, so the determinization is sound for the properties below,
    which never depend on the chosen order).
  * `encoding/json` serialization of a decoded YAML value, used by the Go
    code purely as an equality test, is modelled by `jsonOf`.  A scalar
    carries its JSON rendering directly (e.g. `"1"`, `"\"x\""`, `"null"`,
    `"true"`); json.Marshal of a Go scalar never starts with a brace or a
    bracket, which is the `scalarJsonOk` well-formedness condition below.
    json.Marshal serializes Go maps with sorted keys, mirrored here.
  * the external YAML parser (gopkg.in/yaml.v3) is an external collaborator;
    its observable outcome on the input bytes is modelled by `YamlInput`
    (see there).
-/

namespace Pipeline

/-- A decoded YAML value as produced by yaml.v3 into `interface\x7b\x7d`:
a nested mapping, a sequence, or a scalar (string / number / bool / null).
The scalar constructor carries the `encoding/json` rendering of the Go value,
which is the only observation the diff engine ever makes of a scalar. -/
inductive Value where
  | scalar (j : String)
  | seq (xs : List Value)
  | map (m : List (String × Value))

/-- A parsed YAML mapping: association-list model of `map[string]interface\x7b\x7d`. -/
abbrev YMap := List (String × Value)

/-- Go map indexing `oldData[k]`, returning the entry for `k` if present. -/
def lookupKey (k : String) : YMap → Option Value
  | [] => Option.none
  | (k', v) :: rest => if k' = k then Option.some v else lookupKey k rest

/-- The running dotted path of findDifferences:
`path := k; if prefix != "" \x7b path = prefix + "." + k \x7d`. -/
def pathOf (pfx k : String) : String :=
  if pfx = "" then k else pfx ++ "." ++ k

/-- Insertion sort key order for serialized map entries (encoding/json sorts
map keys when marshalling a Go map). -/
def insertSorted (p : String × String) : List (String × String) → List (String × String)
  | [] => [p]
  | q :: rest => if p.1 ≤ q.1 then p :: q :: rest else q :: insertSorted p rest

/-- Sort serialized map entries by key, as encoding/json does. -/
def sortEntries : List (String × String) → List (String × String)
  | [] => []
  | p :: rest => insertSorted p (sortEntries rest)

/-- Comma-separated join. -/
def joinComma : List String → String
  | [] => ""
  | [s] => s
  | s :: rest => s ++ "," ++ joinComma rest

mutual

/-- Model of `json.Marshal` on a decoded YAML value (used by the Go code only
as an equality test between two such values).  String escaping inside keys is
not modelled; none of the verified properties depends on it. -/
def jsonOf : Value → String
  | .scalar j => j
  | .seq xs => "[" ++ joinComma (jsonList xs) ++ "]"
  | .map m => "\x7b" ++ joinComma ((sortEntries (jsonEntries m)).map
      (fun p => "\"" ++ p.1 ++ "\":" ++ p.2)) ++ "\x7d"

/-- Serialize every element of a sequence. -/
def jsonList : List Value → List String
  | [] => []
  | x :: xs => jsonOf x :: jsonList xs

/-- Serialize every entry of a mapping (before key sorting). -/
def jsonEntries : List (String × Value) → List (String × String)
  | [] => []
  | (k, v) :: rest => (k, jsonOf v) :: jsonEntries rest

end

/-- compareArrays from service.go: length check, then element-by-element
equality of the json.Marshal renderings, in order. -/
def compareArrays (a b : List Value) : Bool :=
  if a.length ≠ b.length then false
  else (a.zip b).all fun p => jsonOf p.1 == jsonOf p.2

/-- A node of the redacted key tree built by extractKeysRecursive: either a
nested result map, or one of the sentinel strings stored by the Go code
(`"[...]"` for a sequence, `"..."` for anything else). -/
inductive KeyNode where
  | node (m : List (String × KeyNode))
  | mark (s : String)

/-- The redacted key tree (`result` map of extractKeysRecursive). -/
abbrev KeyTree := List (String × KeyNode)

/-- extractKeysRecursive from service.go: nested mapping recursed into,
sequence replaced by `"[...]"`, anything else replaced by `"..."`. -/
def extractMap : YMap → KeyTree
  | [] => []
  | (k, .map m) :: rest => (k, .node (extractMap m)) :: extractMap rest
  | (k, .seq _) :: rest => (k, .mark "[...]") :: extractMap rest
  | (k, .scalar _) :: rest => (k, .mark "...") :: extractMap rest

/-- The removed pass of findDifferences: keys of oldData absent from newData
each emit `path → removed`. -/
def removedEntries (oldData newData : YMap) (pfx : String) : List (String × String) :=
  (oldData.filter fun p => (lookupKey p.1 newData).isNone).map
    fun p => (pathOf pfx p.1, "removed")

/-- The first pass of findDifferences, walking the entries of newData.
For each key: absent from oldData → `added`; both mappings → recurse (the
recursive call is the whole findDifferences of the submaps, i.e. its own new
pass followed by its own removed pass); mapping/sequence against a different
shape → `changed`; sequences → compareArrays; otherwise json equality. -/
def diffNewPass : YMap → YMap → String → List (String × String)
  | _, [], _ => []
  | oldData, (k, newVal) :: rest, pfx =>
    (match lookupKey k oldData, newVal with
      | Option.none, _ => [(pathOf pfx k, "added")]
      | Option.some oldVal, .map newM =>
        match oldVal with
        | .map oldM =>
            diffNewPass oldM newM (pathOf pfx k) ++ removedEntries oldM newM (pathOf pfx k)
        | _ => [(pathOf pfx k, "changed")]
      | Option.some oldVal, .seq newXs =>
        match oldVal with
        | .seq oldXs =>
            if compareArrays oldXs newXs then [] else [(pathOf pfx k, "changed")]
        | _ => [(pathOf pfx k, "changed")]
      | Option.some oldVal, .scalar j =>
        if jsonOf oldVal = j then [] else [(pathOf pfx k, "changed")]) ++
    diffNewPass oldData rest pfx

/-- findDifferences from service.go: the pass over newData followed by the
`removed` pass over oldData, as the list of `diff[path] = status` writes the
Go code performs at this level and below. -/
def findDifferences (oldData newData : YMap) (pfx : String) : List (String × String) :=
  diffNewPass oldData newData pfx ++ removedEntries oldData newData pfx

/-- The contribution of one entry `(k, newVal)` of newData to the first pass
(one iteration of the Go loop body). -/
def entryFor (oldData : YMap) (pfx k : String) (newVal : Value) : List (String × String) :=
  match lookupKey k oldData, newVal with
  | Option.none, _ => [(pathOf pfx k, "added")]
  | Option.some oldVal, .map newM =>
    match oldVal with
    | .map oldM => findDifferences oldM newM (pathOf pfx k)
    | _ => [(pathOf pfx k, "changed")]
  | Option.some oldVal, .seq newXs =>
    match oldVal with
    | .seq oldXs =>
        if compareArrays oldXs newXs then [] else [(pathOf pfx k, "changed")]
    | _ => [(pathOf pfx k, "changed")]
  | Option.some oldVal, .scalar j =>
    if jsonOf oldVal = j then [] else [(pathOf pfx k, "changed")]

/-- One Go map write `diff[path] = status`: overwrite if the path is present,
append otherwise. -/
def mapInsert (m : List (String × String)) (k v : String) : List (String × String) :=
  if m.any fun p => p.1 == k then
    m.map fun p => if p.1 == k then (p.1, v) else p
  else m ++ [(k, v)]

/-- The final `diff` map of CompareYAML: the map writes replayed in order. -/
def buildDiffMap (entries : List (String × String)) : List (String × String) :=
  entries.foldl (fun m e => mapInsert m e.1 e.2) []

/-- The observable outcome of handing the input bytes to the external YAML
parser (gopkg.in/yaml.v3), the external collaborator behind
`yaml.Unmarshal(yamlContent, &data)`:
  * `malformed` — the bytes are not syntactically valid YAML;
  * `empty`     — the bytes are an empty or null document (yaml.v3 decodes
    these into a `map[string]interface\x7b\x7d` by leaving it nil, with no error);
  * `doc v`     — a syntactically valid document whose top-level decoded
    value is `v` (a non-null value; the null document is the `empty` case). -/
inductive YamlInput where
  | malformed
  | empty
  | doc (v : Value)

/-- Model of `yaml.Unmarshal(bytes, &data)` with
`data : map[string]interface\x7b\x7d`, following yaml.v3: malformed input errors; an empty/null document decodes to
the nil (empty) map without error; a top-level mapping decodes to itself; any
other top-level value is a decode type error. -/
def unmarshalMap : YamlInput → Except String YMap
  | .malformed => Except.error "yaml: could not find expected node"
  | .empty => Except.ok []
  | .doc (.map m) => Except.ok m
  | .doc _ => Except.error "yaml: unmarshal errors"

/-- ExtractKeys from service.go. -/
def ExtractKeys (p : YamlInput) : Except String KeyTree :=
  match unmarshalMap p with
  | Except.error e => Except.error ("failed to unmarshal YAML: " ++ e)
  | Except.ok data => Except.ok (extractMap data)

/-- CompareYAML from service.go. -/
def CompareYAML (pOld pNew : YamlInput) : Except String (List (String × String)) :=
  match unmarshalMap pOld with
  | Except.error e => Except.error ("failed to unmarshal old YAML: " ++ e)
  | Except.ok oldData =>
    match unmarshalMap pNew with
    | Except.error e => Except.error ("failed to unmarshal new YAML: " ++ e)
    | Except.ok newData => Except.ok (buildDiffMap (findDifferences oldData newData ""))

/-- The first character of a string, if any. -/
def headChar (s : String) : Option Char := s.data.head?

/-- json.Marshal of a Go scalar (string, number, bool, nil) never produces
text beginning with a brace or a bracket — those openers are reserved for Go
maps and slices.  This is the faithfulness condition on the `Value.scalar`
constructor's payload. -/
def scalarJsonOk (j : String) : Bool :=
  !(headChar j == Option.some '{') && !(headChar j == Option.some '[')

/-- Boolean membership of a key in a list of keys. -/
def keyMem (k : String) : List String → Bool
  | [] => false
  | k' :: rest => (k' == k) || keyMem k rest

/-- Whether a list of keys is duplicate-free (a list of Go map keys is). -/
def keysNodup : List String → Bool
  | [] => true
  | k :: rest => !(keyMem k rest) && keysNodup rest

mutual

/-- A `Value` faithfully represents a yaml.v3 decoding result: association
lists standing for Go maps have duplicate-free keys, and scalar payloads are
genuine json.Marshal scalar renderings. -/
def valueWF : Value → Bool
  | .scalar j => scalarJsonOk j
  | .seq xs => listWF xs
  | .map m => keysNodup (m.map Prod.fst) && mapWF m

/-- Every element of a sequence is well-formed. -/
def listWF : List Value → Bool
  | [] => true
  | x :: xs => valueWF x && listWF xs

/-- Every value of a mapping is well-formed. -/
def mapWF : List (String × Value) → Bool
  | [] => true
  | (_, v) :: rest => valueWF v && mapWF rest

end

/-- A `YamlInput` whose decoded document, if any, is well-formed. -/
def inputWF : YamlInput → Bool
  | .malformed => true
  | .empty => true
  | .doc v => valueWF v

mutual

/-- The redaction shape of one stored value of the key tree: a nested tree
whose own values are redacted, or one of the two sentinel strings. -/
def nodeRedacted : KeyNode → Bool
  | .node m => treeRedacted m
  | .mark s => (s == "[...]") || (s == "...")

/-- Every value stored in the tree is redacted. -/
def treeRedacted : KeyTree → Bool
  | [] => true
  | (_, v) :: rest => nodeRedacted v && treeRedacted rest

end

/-- Whether the input's top-level document is a YAML mapping. -/
def isTopLevelMapping : YamlInput → Bool
  | .doc (.map _) => true
  | _ => false

/-! ### Basic lemmas about the association-list map model -/

theorem lookupKey_isSome_of_mem {m : YMap} {p : String × Value} (h : p ∈ m) :
    (lookupKey p.1 m).isSome = true := by
  induction m with
  | nil => cases h
  | cons q rest ih =>
    obtain ⟨k', v'⟩ := q
    rcases List.mem_cons.mp h with h | h
    · subst h
      simp [lookupKey]
    · by_cases hk : k' = p.1 <;> simp [lookupKey, hk, ih h]

theorem keyMem_of_mem {l : List String} {a : String} (h : a ∈ l) : keyMem a l = true := by
  induction l with
  | nil => cases h
  | cons b rest ih =>
    rcases List.mem_cons.mp h with h | h
    · subst h; simp [keyMem]
    · simp [keyMem, ih h]

theorem lookupKey_of_nodup {m : YMap} (hnd : keysNodup (m.map Prod.fst) = true)
    {k : String} {v : Value} (h : (k, v) ∈ m) : lookupKey k m = Option.some v := by
  induction m with
  | nil => cases h
  | cons q rest ih =>
    obtain ⟨k', v'⟩ := q
    simp only [List.map_cons, keysNodup, Bool.and_eq_true, Bool.not_eq_true'] at hnd
    rcases List.mem_cons.mp h with h | h
    · cases h
      simp [lookupKey]
    · have hk : k' ≠ k := by
        intro hkk
        subst hkk
        have : k' ∈ rest.map Prod.fst := List.mem_map.mpr ⟨(k', v), h, rfl⟩
        rw [keyMem_of_mem this] at hnd
        simp at hnd
      simp [lookupKey, hk, ih hnd.2 h]

theorem mapWF_of_mem {m : YMap} (hwf : mapWF m = true) {p : String × Value}
    (h : p ∈ m) : valueWF p.2 = true := by
  induction m with
  | nil => cases h
  | cons q rest ih =>
    obtain ⟨k', v'⟩ := q
    simp only [mapWF, Bool.and_eq_true] at hwf
    rcases List.mem_cons.mp h with h | h
    · subst h; exact hwf.1
    · exact ih hwf.2 h

theorem listWF_of_mem {xs : List Value} (hwf : listWF xs = true) {x : Value}
    (h : x ∈ xs) : valueWF x = true := by
  induction xs with
  | nil => cases h
  | cons y rest ih =>
    simp only [listWF, Bool.and_eq_true] at hwf
    rcases List.mem_cons.mp h with h | h
    · subst h; exact hwf.1
    · exact ih hwf.2 h

/-! ### C1: the extracted key tree is fully redacted -/

theorem treeRedacted_extractMap : (m : YMap) → treeRedacted (extractMap m) = true
  | [] => by simp [extractMap, treeRedacted]
  | (_, .map sub) :: rest => by
    have h1 := treeRedacted_extractMap sub
    have h2 := treeRedacted_extractMap rest
    simp [extractMap, treeRedacted, nodeRedacted, h1, h2]
  | (_, .seq _) :: rest => by
    have h2 := treeRedacted_extractMap rest
    simp [extractMap, treeRedacted, nodeRedacted, h2]
  | (_, .scalar _) :: rest => by
    have h2 := treeRedacted_extractMap rest
    simp [extractMap, treeRedacted, nodeRedacted, h2]

/-- C1: for every YAML input accepted by ExtractKeys, every value in the
resulting key tree is either a nested key tree, the sentinel `"[...]"`, or
the sentinel `"..."`; no scalar or sequence-element content of the input is
ever stored in the output. -/
theorem extractKeys_redacted (p : YamlInput) (t : KeyTree)
    (h : ExtractKeys p = Except.ok t) : treeRedacted t = true := by
  unfold ExtractKeys at h
  split at h
  · exact absurd h (by simp)
  · simp only [Except.ok.injEq] at h
    subst h
    exact treeRedacted_extractMap _

/-- Witness for C1 at the end-to-end example document
`db: (password: "x", host: "h"), ports: [80]`. -/
theorem extractKeys_redacted_witness :
    treeRedacted (extractMap
      [("db", Value.map [("password", Value.scalar "\"x\""), ("host", Value.scalar "\"h\"")]),
       ("ports", Value.seq [Value.scalar "80"])]) = true :=
  extractKeys_redacted
    (YamlInput.doc (Value.map
      [("db", Value.map [("password", Value.scalar "\"x\""), ("host", Value.scalar "\"h\"")]),
       ("ports", Value.seq [Value.scalar "80"])]))
    _ rfl

/-! ### C2: CompareYAML of a document with itself is empty -/

theorem compareArrays_self (xs : List Value) : compareArrays xs xs = true := by
  simp only [compareArrays, ne_eq, not_true_eq_false, if_false]
  induction xs with
  | nil => rfl
  | cons x rest ih => simpa [List.zip_cons_cons, List.all_cons] using ih

theorem removedEntries_self (d : YMap) (pfx : String) : removedEntries d d pfx = [] := by
  unfold removedEntries
  have : d.filter (fun p => (lookupKey p.1 d).isNone) = [] := by
    rw [List.filter_eq_nil_iff]
    intro p hp
    have := lookupKey_isSome_of_mem hp
    simp [Option.isNone]
    cases hl : lookupKey p.1 d with
    | none => rw [hl] at this; cases this
    | some _ => simp
  rw [this, List.map_nil]

theorem diffNewPass_self : (d n : YMap) → (pfx : String) →
    (∀ p ∈ n, lookupKey p.1 d = Option.some p.2 ∧ valueWF p.2 = true) →
    diffNewPass d n pfx = []
  | _, [], _, _ => by simp [diffNewPass]
  | d, (k, Value.map m) :: rest, pfx, h => by
    have hl : lookupKey k d = Option.some (Value.map m) := (h _ (List.mem_cons_self _ _)).1
    have hwf : valueWF (Value.map m) = true := (h _ (List.mem_cons_self _ _)).2
    have hrest := diffNewPass_self d rest pfx (fun p hp => h p (List.mem_cons_of_mem _ hp))
    simp only [valueWF, Bool.and_eq_true] at hwf
    have hsub : ∀ p ∈ m, lookupKey p.1 m = Option.some p.2 ∧ valueWF p.2 = true := by
      intro p hp
      obtain ⟨pk, pv⟩ := p
      exact ⟨lookupKey_of_nodup hwf.1 hp, mapWF_of_mem hwf.2 hp⟩
    have hsubeq := diffNewPass_self m m (pathOf pfx k) hsub
    simp [diffNewPass, hl, hrest, hsubeq, removedEntries_self]
  | d, (k, Value.seq xs) :: rest, pfx, h => by
    have hl : lookupKey k d = Option.some (Value.seq xs) := (h _ (List.mem_cons_self _ _)).1
    have hrest := diffNewPass_self d rest pfx (fun p hp => h p (List.mem_cons_of_mem _ hp))
    simp [diffNewPass, hl, hrest, compareArrays_self]
  | d, (k, Value.scalar j) :: rest, pfx, h => by
    have hl : lookupKey k d = Option.some (Value.scalar j) := (h _ (List.mem_cons_self _ _)).1
    have hrest := diffNewPass_self d rest pfx (fun p hp => h p (List.mem_cons_of_mem _ hp))
    simp [diffNewPass, hl, hrest, jsonOf]

/-- C2: for every well-formed YAML document that CompareYAML accepts,
comparing the document with itself yields the empty diff set. -/
theorem compareYAML_self (p : YamlInput) (hwf : inputWF p = true)
    (hacc : (CompareYAML p p).isOk = true) : CompareYAML p p = Except.ok [] := by
  cases p with
  | malformed => simp [CompareYAML, unmarshalMap, Except.isOk, Except.toBool] at hacc
  | empty =>
    simp [CompareYAML, unmarshalMap, findDifferences, diffNewPass,
      removedEntries, buildDiffMap]
  | doc v =>
    cases v with
    | scalar j => simp [CompareYAML, unmarshalMap, Except.isOk, Except.toBool] at hacc
    | seq xs => simp [CompareYAML, unmarshalMap, Except.isOk, Except.toBool] at hacc
    | map m =>
      simp only [inputWF] at hwf
      simp only [valueWF, Bool.and_eq_true] at hwf
      have hsub : ∀ q ∈ m, lookupKey q.1 m = Option.some q.2 ∧ valueWF q.2 = true := by
        intro q hq
        obtain ⟨qk, qv⟩ := q
        exact ⟨lookupKey_of_nodup hwf.1 hq, mapWF_of_mem hwf.2 hq⟩
      simp [CompareYAML, unmarshalMap, findDifferences,
        diffNewPass_self m m "" hsub, removedEntries_self, buildDiffMap]

/-- Witness for C2 at the concrete document `a: 1, b: (c: [2, 3])`. -/
theorem compareYAML_self_witness :
    CompareYAML
      (YamlInput.doc (Value.map [("a", Value.scalar "1"),
        ("b", Value.map [("c", Value.seq [Value.scalar "2", Value.scalar "3"])])]))
      (YamlInput.doc (Value.map [("a", Value.scalar "1"),
        ("b", Value.map [("c", Value.seq [Value.scalar "2", Value.scalar "3"])])]))
      = Except.ok [] :=
  compareYAML_self
    (YamlInput.doc (Value.map [("a", Value.scalar "1"),
      ("b", Value.map [("c", Value.seq [Value.scalar "2", Value.scalar "3"])])]))
    (by simp [inputWF, valueWF, listWF, mapWF, keysNodup, keyMem, scalarJsonOk, headChar])
    (by simp [CompareYAML, unmarshalMap, findDifferences, diffNewPass, removedEntries,
          lookupKey, pathOf, compareArrays, jsonOf, jsonList, joinComma, buildDiffMap,
          mapInsert, Except.isOk, Except.toBool])

/-! ### C3, C4, C5: per-level structure of the diff -/

theorem mem_of_lookupKey {m : YMap} {k : String} {v : Value}
    (h : lookupKey k m = Option.some v) : (k, v) ∈ m := by
  induction m with
  | nil => simp [lookupKey] at h
  | cons q rest ih =>
    obtain ⟨k', v'⟩ := q
    by_cases hk : k' = k
    · subst hk
      simp [lookupKey] at h
      subst h
      exact List.mem_cons_self _ _
    · simp [lookupKey, hk] at h
      exact List.mem_cons_of_mem _ (ih h)

theorem pathOf_inj {pfx k k' : String} (h : pathOf pfx k = pathOf pfx k') : k = k' := by
  unfold pathOf at h
  by_cases hp : pfx = ""
  · simpa [hp] using h
  · simp only [hp, if_false] at h
    have hd := congrArg String.data h
    simp only [String.data_append] at hd
    exact String.ext (List.append_cancel_left hd)

/-- The body of the Go loop over newData, one key at a time: this is how
`diffNewPass` decomposes over a cons cell. -/
theorem diffNewPass_cons (oldData : YMap) (k : String) (v : Value) (rest : YMap)
    (pfx : String) :
    diffNewPass oldData ((k, v) :: rest) pfx =
      entryFor oldData pfx k v ++ diffNewPass oldData rest pfx := by
  cases hl : lookupKey k oldData with
  | none => cases v <;> simp [diffNewPass, entryFor, hl]
  | some oldV => cases v <;> cases oldV <;>
      simp [diffNewPass, entryFor, findDifferences, hl]

theorem entryFor_added {oldData : YMap} {pfx k : String} {v : Value}
    (h : lookupKey k oldData = Option.none) :
    entryFor oldData pfx k v = [(pathOf pfx k, "added")] := by
  cases v <;> simp [entryFor, h]

/-- C3: at each level of the diff, a key present in new and absent in old
contributes exactly the single entry `path → added` (no descent below it); a
key present on both sides never contributes an `added` entry of its own (its
contribution is either the recursion into the two submaps, a single
`path → changed`, or nothing); and `path → removed` is emitted exactly for
the keys present in old and absent in new. -/
theorem addedRemoved_complement (oldData newData : YMap) (pfx : String) :
    (∀ k v, lookupKey k newData = Option.some v → lookupKey k oldData = Option.none →
        entryFor oldData pfx k v = [(pathOf pfx k, "added")])
  ∧ (∀ k v oldV, lookupKey k newData = Option.some v →
        lookupKey k oldData = Option.some oldV →
        (∃ oM nM, oldV = Value.map oM ∧ v = Value.map nM ∧
            entryFor oldData pfx k v = findDifferences oM nM (pathOf pfx k))
        ∨ entryFor oldData pfx k v = [(pathOf pfx k, "changed")]
        ∨ entryFor oldData pfx k v = [])
  ∧ (∀ k, (pathOf pfx k, "removed") ∈ removedEntries oldData newData pfx ↔
        ((lookupKey k oldData).isSome = true ∧ lookupKey k newData = Option.none))
  ∧ (∀ q s, (q, s) ∈ removedEntries oldData newData pfx → s = "removed") := by
  refine ⟨fun k v _ h => entryFor_added h, ?_, ?_, ?_⟩
  · intro k v oldV _ hOld
    cases v with
    | map nM =>
      cases oldV with
      | map oM => exact Or.inl ⟨oM, nM, rfl, rfl, by simp [entryFor, hOld]⟩
      | scalar j => exact Or.inr (Or.inl (by simp [entryFor, hOld]))
      | seq xs => exact Or.inr (Or.inl (by simp [entryFor, hOld]))
    | seq ys =>
      cases oldV with
      | seq xs =>
        by_cases hc : compareArrays xs ys = true
        · exact Or.inr (Or.inr (by simp [entryFor, hOld, hc]))
        · exact Or.inr (Or.inl (by simp [entryFor, hOld, hc]))
      | scalar j => exact Or.inr (Or.inl (by simp [entryFor, hOld]))
      | map oM => exact Or.inr (Or.inl (by simp [entryFor, hOld]))
    | scalar j =>
      by_cases hc : jsonOf oldV = j
      · exact Or.inr (Or.inr (by simp [entryFor, hOld, hc]))
      · exact Or.inr (Or.inl (by simp [entryFor, hOld, hc]))
  · intro k
    constructor
    · intro hmem
      unfold removedEntries at hmem
      obtain ⟨p, hp, hpe⟩ := List.mem_map.mp hmem
      have hfil := List.mem_filter.mp hp
      have hk : p.1 = k := pathOf_inj (congrArg Prod.fst hpe)
      refine ⟨?_, ?_⟩
      · rw [← hk]
        exact lookupKey_isSome_of_mem hfil.1
      · rw [← hk]
        simpa [Option.isNone_iff_eq_none] using hfil.2
    · intro ⟨hOld, hNew⟩
      cases hl : lookupKey k oldData with
      | none => rw [hl] at hOld; cases hOld
      | some v =>
        unfold removedEntries
        refine List.mem_map.mpr ⟨(k, v), List.mem_filter.mpr ⟨mem_of_lookupKey hl, ?_⟩, rfl⟩
        simp [hNew]
  · intro q s hmem
    unfold removedEntries at hmem
    obtain ⟨p, _, hpe⟩ := List.mem_map.mp hmem
    exact ((Prod.mk.injEq _ _ _ _).mp hpe).2.symm

/-- Witness for C3: an added key and a removed key at the top level. -/
theorem addedRemoved_complement_witness :
    entryFor [] "" "a" (Value.scalar "1") = [(pathOf "" "a", "added")] ∧
    (pathOf "" "b", "removed") ∈ removedEntries [("b", Value.scalar "2")] [] "" :=
  ⟨(addedRemoved_complement [] [("a", Value.scalar "1")] "").1 "a" (Value.scalar "1") rfl rfl,
   ((addedRemoved_complement [("b", Value.scalar "2")] [] "").2.2.1 "b").mpr ⟨rfl, rfl⟩⟩

/-- C4: CompareYAML on `a: [1,2]` against `a: [2,1]` yields `a → changed`;
in general compareArrays holds exactly when the two sequences have equal
length and are equal element-by-element in order (by serialized form), and an
equal pair of sequences at a key contributes no diff entry. -/
theorem sequence_order_sensitivity :
    CompareYAML
        (YamlInput.doc (Value.map [("a", Value.seq [Value.scalar "1", Value.scalar "2"])]))
        (YamlInput.doc (Value.map [("a", Value.seq [Value.scalar "2", Value.scalar "1"])]))
      = Except.ok [("a", "changed")]
  ∧ (∀ a b : List Value, compareArrays a b = true ↔
        (a.length = b.length ∧ ∀ p ∈ a.zip b, jsonOf p.1 = jsonOf p.2))
  ∧ (∀ (oldData : YMap) (pfx k : String) (xs ys : List Value),
        lookupKey k oldData = Option.some (Value.seq xs) →
        entryFor oldData pfx k (Value.seq ys) =
          if compareArrays xs ys then [] else [(pathOf pfx k, "changed")]) := by
  refine ⟨?_, ?_, ?_⟩
  · simp [CompareYAML, unmarshalMap, findDifferences, diffNewPass, removedEntries,
      lookupKey, pathOf, compareArrays, jsonOf, jsonList, joinComma, buildDiffMap,
      mapInsert]
  · intro a b
    unfold compareArrays
    by_cases h : a.length = b.length <;> simp [h, List.all_eq_true]
  · intro oldData pfx k xs ys h
    simp [entryFor, h]

/-- Witness for C4's general clauses at `[1] = [1]` under the key `a`. -/
theorem sequence_order_sensitivity_witness :
    (compareArrays [Value.scalar "1"] [Value.scalar "1"] = true ↔
      (([Value.scalar "1"] : List Value).length = ([Value.scalar "1"] : List Value).length ∧
        ∀ p ∈ ([Value.scalar "1"] : List Value).zip [Value.scalar "1"],
          jsonOf p.1 = jsonOf p.2))
  ∧ entryFor [("a", Value.seq [Value.scalar "1"])] "" "a" (Value.seq [Value.scalar "1"]) =
      if compareArrays [Value.scalar "1"] [Value.scalar "1"] then []
      else [(pathOf "" "a", "changed")] :=
  ⟨sequence_order_sensitivity.2.1 [Value.scalar "1"] [Value.scalar "1"],
   sequence_order_sensitivity.2.2 [("a", Value.seq [Value.scalar "1"])] "" "a"
     [Value.scalar "1"] [Value.scalar "1"] rfl⟩

/-! ### C5: uniqueness of paths in the diff map, and the tie-break rule -/

theorem anyKey_eq_keyMem (m : List (String × String)) (k : String) :
    (m.any fun p => p.1 == k) = keyMem k (m.map Prod.fst) := by
  induction m with
  | nil => rfl
  | cons p rest ih => simp [List.any_cons, keyMem, ih]

theorem keyMem_append (k : String) (l1 l2 : List String) :
    keyMem k (l1 ++ l2) = (keyMem k l1 || keyMem k l2) := by
  induction l1 with
  | nil => simp [keyMem]
  | cons a rest ih => simp [keyMem, ih, Bool.or_assoc]

theorem keysNodup_append_singleton {l : List String} {k : String}
    (hnd : keysNodup l = true) (hni : keyMem k l = false) :
    keysNodup (l ++ [k]) = true := by
  induction l with
  | nil => simp [keysNodup, keyMem]
  | cons a rest ih =>
    simp only [keysNodup, Bool.and_eq_true, Bool.not_eq_true'] at hnd
    simp only [keyMem, Bool.or_eq_false_iff] at hni
    have hmem : keyMem a (rest ++ [k]) = false := by
      rw [keyMem_append, hnd.1]
      simp only [keyMem, Bool.or_false, Bool.false_or]
      rw [beq_eq_false_iff_ne]
      exact fun he => (beq_eq_false_iff_ne.mp hni.1) he.symm
    have htail : keysNodup (rest ++ [k]) = true := ih hnd.2 hni.2
    show keysNodup ((a :: rest) ++ [k]) = true
    rw [List.cons_append]
    show (!(keyMem a (rest ++ [k])) && keysNodup (rest ++ [k])) = true
    rw [hmem, htail]
    rfl

theorem keysNodup_mapInsert (m : List (String × String)) (k v : String)
    (h : keysNodup (m.map Prod.fst) = true) :
    keysNodup ((mapInsert m k v).map Prod.fst) = true := by
  unfold mapInsert
  by_cases hc : (m.any fun p => p.1 == k) = true
  · rw [if_pos hc]
    have hkeys : ∀ l : List (String × String),
        (l.map fun p => if p.1 == k then (p.1, v) else p).map Prod.fst = l.map Prod.fst := by
      intro l
      induction l with
      | nil => rfl
      | cons p rest ih =>
        simp only [List.map_cons, ih]
        congr 1
        by_cases hp : (p.1 == k) = true
        · simp [hp]
        · simp [hp]
    rw [hkeys]
    exact h
  · rw [if_neg hc, List.map_append]
    refine keysNodup_append_singleton h ?_
    rw [← anyKey_eq_keyMem]
    exact Bool.eq_false_iff.mpr hc

theorem keysNodup_buildDiffMap (entries : List (String × String)) :
    keysNodup ((buildDiffMap entries).map Prod.fst) = true := by
  suffices h : ∀ m, keysNodup (m.map Prod.fst) = true →
      keysNodup ((entries.foldl (fun m e => mapInsert m e.1 e.2) m).map Prod.fst) = true by
    exact h [] rfl
  induction entries with
  | nil => intro m hm; exact hm
  | cons e rest ih =>
    intro m hm
    exact ih _ (keysNodup_mapInsert _ _ _ hm)

/-- The shape (Go dynamic type) of a decoded YAML value. -/
inductive VShape where
  | scalarShape
  | seqShape
  | mapShape
deriving DecidableEq

/-- Classify a value by its Go dynamic type. -/
def shapeOf : Value → VShape
  | .scalar _ => VShape.scalarShape
  | .seq _ => VShape.seqShape
  | .map _ => VShape.mapShape

theorem headChar_jsonOf_map (m : YMap) :
    headChar (jsonOf (Value.map m)) = Option.some '{' := by
  simp [jsonOf, headChar, String.data_append]

theorem headChar_jsonOf_seq (xs : List Value) :
    headChar (jsonOf (Value.seq xs)) = Option.some '[' := by
  simp [jsonOf, headChar, String.data_append]

theorem jsonOf_map_ne_scalar {m : YMap} {j : String} (hwf : scalarJsonOk j = true) :
    jsonOf (Value.map m) ≠ j := by
  intro he
  have h1 := headChar_jsonOf_map m
  rw [he] at h1
  simp [scalarJsonOk, h1] at hwf

theorem jsonOf_seq_ne_scalar {xs : List Value} {j : String} (hwf : scalarJsonOk j = true) :
    jsonOf (Value.seq xs) ≠ j := by
  intro he
  have h1 := headChar_jsonOf_seq xs
  rw [he] at h1
  simp [scalarJsonOk, h1] at hwf

/-- C5: each dotted key-path occurs at most once in the diff map CompareYAML
returns (it is a Go map, written path by path); when both sides at a key are
mappings the engine's whole contribution for that key is the recursion into
the two submaps, with no entry emitted for the parent itself; and when the
dynamic types at a key differ, the contribution is the single entry
`path → changed`, with no descent. -/
theorem diff_path_unique :
    (∀ pOld pNew r, CompareYAML pOld pNew = Except.ok r →
        keysNodup (r.map Prod.fst) = true)
  ∧ (∀ (oldData : YMap) (pfx k : String) (oM nM : YMap),
        lookupKey k oldData = Option.some (Value.map oM) →
        entryFor oldData pfx k (Value.map nM) = findDifferences oM nM (pathOf pfx k))
  ∧ (∀ (oldData : YMap) (pfx k : String) (oldV v : Value),
        lookupKey k oldData = Option.some oldV →
        valueWF oldV = true → valueWF v = true → shapeOf oldV ≠ shapeOf v →
        entryFor oldData pfx k v = [(pathOf pfx k, "changed")]) := by
  refine ⟨?_, ?_, ?_⟩
  · intro pOld pNew r h
    unfold CompareYAML at h
    split at h
    · exact absurd h (by simp)
    · split at h
      · exact absurd h (by simp)
      · simp only [Except.ok.injEq] at h
        subst h
        exact keysNodup_buildDiffMap _
  · intro oldData pfx k oM nM h
    simp [entryFor, h]
  · intro oldData pfx k oldV v h hwfOld hwfNew hsh
    cases v with
    | scalar j =>
      cases oldV with
      | scalar j' => exact absurd rfl hsh
      | seq xs =>
        have := @jsonOf_seq_ne_scalar xs j (by simpa [valueWF] using hwfNew)
        simp [entryFor, h, this]
      | map oM =>
        have := @jsonOf_map_ne_scalar oM j (by simpa [valueWF] using hwfNew)
        simp [entryFor, h, this]
    | seq ys =>
      cases oldV with
      | scalar j' => simp [entryFor, h]
      | seq xs => exact absurd rfl hsh
      | map oM => simp [entryFor, h]
    | map nM =>
      cases oldV with
      | scalar j' => simp [entryFor, h]
      | seq xs => simp [entryFor, h]
      | map oM => exact absurd rfl hsh

/-- Witness for C5: a concrete diff map with unique paths, the map-map
recursion contribution, and the type-mismatch tie-break at `a`. -/
theorem diff_path_unique_witness :
    keysNodup (([("a", "changed")] : List (String × String)).map Prod.fst) = true ∧
    entryFor [("a", Value.map [])] "" "a" (Value.map []) = findDifferences [] [] (pathOf "" "a") ∧
    entryFor [("a", Value.map [])] "" "a" (Value.scalar "1") = [(pathOf "" "a", "changed")] :=
  ⟨diff_path_unique.1
      (YamlInput.doc (Value.map [("a", Value.seq [Value.scalar "1", Value.scalar "2"])]))
      (YamlInput.doc (Value.map [("a", Value.seq [Value.scalar "2", Value.scalar "1"])]))
      [("a", "changed")]
      (by simp [CompareYAML, unmarshalMap, findDifferences, diffNewPass, removedEntries,
            lookupKey, pathOf, compareArrays, jsonOf, jsonList, joinComma, buildDiffMap,
            mapInsert]),
   diff_path_unique.2.1 [("a", Value.map [])] "" "a" [] [] rfl,
   diff_path_unique.2.2 [("a", Value.map [])] "" "a" (Value.map []) (Value.scalar "1") rfl
     (by simp [valueWF, mapWF, keysNodup])
     (by simp [valueWF, scalarJsonOk, headChar])
     (by simp [shapeOf])⟩

/-! ### C6: acceptance condition of ExtractKeys and CompareYAML -/

/-- Whether the modelled yaml.v3 decoding of the input into a Go map
succeeds: malformed input is rejected, a non-null non-mapping top-level
document is rejected, and an empty or null document is accepted (decoded to
the nil map). -/
def acceptsYaml : YamlInput → Bool
  | .malformed => false
  | .empty => true
  | .doc (.map _) => true
  | .doc _ => false

/-- Counterexample to C6 as stated: the empty (equivalently, null) YAML
document is not a mapping at the top level, yet ExtractKeys accepts it —
yaml.v3 decodes an empty or null document into a nil map without error — and
returns the empty key tree. -/
theorem extractKeys_error_iff_cex :
    isTopLevelMapping YamlInput.empty = false ∧
    ExtractKeys YamlInput.empty = Except.ok [] :=
  ⟨rfl, by simp [ExtractKeys, unmarshalMap, extractMap]⟩

/-- C6 (amended): ExtractKeys succeeds exactly when its input is an empty or
null document or a top-level mapping, and errors otherwise (malformed YAML,
or a non-null non-mapping top-level document); CompareYAML succeeds exactly
when both of its inputs do. -/
theorem extractKeys_error_iff :
    (∀ p, (ExtractKeys p).isOk = acceptsYaml p)
  ∧ (∀ p q, (CompareYAML p q).isOk = (acceptsYaml p && acceptsYaml q))
  ∧ (∀ p, acceptsYaml p = true ↔ (p = YamlInput.empty ∨ isTopLevelMapping p = true)) := by
  refine ⟨?_, ?_, ?_⟩
  · intro p
    cases p with
    | malformed => rfl
    | empty => rfl
    | doc v => cases v <;> rfl
  · intro p q
    cases p with
    | malformed => cases q <;> rfl
    | empty =>
      cases q with
      | malformed => rfl
      | empty => rfl
      | doc v => cases v <;> rfl
    | doc v =>
      cases v <;> cases q <;>
        first
        | rfl
        | (rename_i u; cases u <;> rfl)
  · intro p
    cases p with
    | malformed => simp [acceptsYaml, isTopLevelMapping]
    | empty => simp [acceptsYaml, isTopLevelMapping]
    | doc v => cases v <;> simp [acceptsYaml, isTopLevelMapping]

/-! ### The pipeline orchestration (internal/api/routes.go)

The external collaborators — the GitHub API client, the git service, the
filesystem, the helm renderer, and the YAML parser — are modelled by a
`World` of call outcomes, and every git/filesystem mutation the pipeline
attempts is recorded in an effect trace, in program order. -/

/-- Raw file content, `[]byte`. -/
abbrev Bytes := List Nat

/-- ValuesRepo from config.go (branch already defaulted by validateConfig). -/
structure ValuesRepo where
  owner : String
  repo : String
  path : String
  branch : String

/-- OutputRepo from config.go. -/
structure OutputRepo where
  owner : String
  repo : String
  path : String
  filename : String
  branch : String

/-- ConfigGroup from config.go. -/
structure ConfigGroup where
  name : String
  valuesRepos : List ValuesRepo
  outputRepo : OutputRepo

/-- GetRepoURL from config.go. -/
def GetRepoURL (owner repo : String) : String :=
  "https://github.com/" ++ owner ++ "/" ++ repo ++ ".git"

/-- filepath.Join, for the two-component joins routes.go performs. -/
def joinPath (a b : String) : String := a ++ "/" ++ b

/-- Repository metadata from the GitHub service's GetRepository. -/
structure RepoInfo where
  cloneURL : String
  owner : String
  name : String

/-- One externally visible git/filesystem mutation attempted by the
pipeline. -/
inductive GitEffect where
  | cloneRepo (url dir branch : String)
  | writeFile (path : String) (content : Bytes)
  | commitAndPush (repoPath message : String)

/-- Whether an effect is a repository checkout (as opposed to a local write
or a commit-and-push). -/
def GitEffect.isClone : GitEffect → Bool
  | .cloneRepo _ _ _ => true
  | _ => false

/-- The outcomes of the external collaborators as observed by one request:
each field gives the result the corresponding external call returns. -/
structure World where
  tempDir : String
  getRepository : Except String RepoInfo
  cloneRepository : String → String → String → Except String Unit
  statExists : String → Bool
  templateChart : String → List String → Except String Bytes
  readFile : String → Option Bytes
  mkdirAll : String → Except String Unit
  writeFile : String → Bytes → Except String Unit
  commitAndPush : String → String → Except String Unit
  parseYaml : Bytes → YamlInput

/-- findConfigGroup from routes.go: first configured group with the name. -/
def findConfigGroup : List ConfigGroup → String → Except String ConfigGroup
  | [], name => Except.error ("configuration group not found: " ++ name)
  | g :: rest, name => if g.name = name then Except.ok g else findConfigGroup rest name

/-- GetLocalRepoPath from git/service.go:
`filepath.Join(os.TempDir(), owner-repo-branch)`. -/
def GetLocalRepoPath (tempDir owner repo branch : String) : String :=
  joinPath tempDir (owner ++ "-" ++ repo ++ "-" ++ branch)

/-- cloneValuesRepositories from routes.go: clone each values repository in
order and collect the local values-file paths; the first clone failure
aborts with a wrapped error.  Also returns the clone attempts made. -/
def cloneValuesList (w : World) : List ValuesRepo → Except String (List String) × List GitEffect
  | [] => (Except.ok [], [])
  | vr :: rest =>
    let repoURL := GetRepoURL vr.owner vr.repo
    let dir := joinPath w.tempDir ("values-" ++ vr.owner ++ "-" ++ vr.repo ++ "-" ++ vr.branch)
    match w.cloneRepository repoURL dir vr.branch with
    | Except.error e =>
      (Except.error ("failed to clone values repository " ++ vr.owner ++ "/" ++ vr.repo ++
          ": " ++ e),
       [GitEffect.cloneRepo repoURL dir vr.branch])
    | Except.ok _ =>
      match cloneValuesList w rest with
      | (res, effs) =>
        (res.map fun paths => joinPath dir vr.path :: paths,
         GitEffect.cloneRepo repoURL dir vr.branch :: effs)

/-- cloneOutputRepository from routes.go. -/
def cloneOutputRepository (w : World) (group : ConfigGroup) :
    Except String String × List GitEffect :=
  let out := group.outputRepo
  let repoURL := GetRepoURL out.owner out.repo
  let dir := joinPath w.tempDir ("output-" ++ out.owner ++ "-" ++ out.repo ++ "-" ++ out.branch)
  match w.cloneRepository repoURL dir out.branch with
  | Except.error e =>
    (Except.error ("failed to clone output repository " ++ out.owner ++ "/" ++ out.repo ++
        ": " ++ e),
     [GitEffect.cloneRepo repoURL dir out.branch])
  | Except.ok _ => (Except.ok dir, [GitEffect.cloneRepo repoURL dir out.branch])

/-- The output directory inside the checked-out output repository
(`outputRepoPath`, joined with the group's configured path when set). -/
def outputDirOf (group : ConfigGroup) (outputRepoPath : String) : String :=
  if group.outputRepo.path = "" then outputRepoPath
  else joinPath outputRepoPath group.outputRepo.path

/-- The output filename, defaulting to `generated.yaml`. -/
def outputFilenameOf (group : ConfigGroup) : String :=
  if group.outputRepo.filename = "" then "generated.yaml" else group.outputRepo.filename

/-- The full path of the output file inside the checkout. -/
def outputPathOf (group : ConfigGroup) (outputRepoPath : String) : String :=
  joinPath (outputDirOf group outputRepoPath) (outputFilenameOf group)

/-- The commit message actually used: the operator message, annotated with
source owner/repo/branch/group whenever the operator message is non-empty
(routes.go lines 238-242). -/
def finalCommitMessageOf (commitMessage owner repoName branch groupName : String) : String :=
  if commitMessage ≠ "" then
    commitMessage ++ " (generated from " ++ owner ++ "/" ++ repoName ++ " branch: " ++
      branch ++ ", group: " ++ groupName ++ ")"
  else commitMessage

/-- A group's pipeline outcome (the `result` map of processConfigGroup). -/
inductive GroupResult where
  | previewAllNew (keys : KeyTree)
  | previewDiff (changes : List (String × String))
  | committed (keys : KeyTree) (message : String) (contentChanged : Bool)

/-- processConfigGroup from routes.go, returning the outcome together with
the trace of attempted git/filesystem mutations, in program order. -/
def processConfigGroup (w : World) (groups : List ConfigGroup)
    (groupName templateRepoBranch commitMessage : String) (previewOnly : Bool) :
    Except String GroupResult × List GitEffect :=
  match findConfigGroup groups groupName with
  | Except.error e => (Except.error e, [])
  | Except.ok group =>
  match w.getRepository with
  | Except.error e => (Except.error ("failed to get repository information: " ++ e), [])
  | Except.ok repo =>
  let templateRepoPath := GetLocalRepoPath w.tempDir repo.owner repo.name templateRepoBranch
  let cloneEff := GitEffect.cloneRepo repo.cloneURL templateRepoPath templateRepoBranch
  match w.cloneRepository repo.cloneURL templateRepoPath templateRepoBranch with
  | Except.error e => (Except.error ("failed to clone template repository: " ++ e), [cloneEff])
  | Except.ok _ =>
  if !(w.statExists (joinPath templateRepoPath "Chart.yaml")) then
    (Except.error "Chart.yaml not found in repository root", [cloneEff])
  else if !(w.statExists (joinPath templateRepoPath "templates")) then
    (Except.error "templates directory not found", [cloneEff])
  else
  match cloneValuesList w group.valuesRepos with
  | (Except.error e, vEffs) => (Except.error e, cloneEff :: vEffs)
  | (Except.ok valuesPaths, vEffs) =>
  if valuesPaths.isEmpty then
    (Except.error ("no values files found for group " ++ groupName), cloneEff :: vEffs)
  else
  match w.templateChart templateRepoPath valuesPaths with
  | Except.error e => (Except.error ("failed to template chart: " ++ e), cloneEff :: vEffs)
  | Except.ok yamlOutput =>
  if previewOnly then
    match cloneOutputRepository w group with
    | (Except.error e, oEffs) => (Except.error e, cloneEff :: (vEffs ++ oEffs))
    | (Except.ok outputRepoPath, oEffs) =>
      match w.readFile (outputPathOf group outputRepoPath) with
      | Option.none =>
        match ExtractKeys (w.parseYaml yamlOutput) with
        | Except.error e =>
          (Except.error ("failed to extract keys: " ++ e), cloneEff :: (vEffs ++ oEffs))
        | Except.ok keys =>
          (Except.ok (GroupResult.previewAllNew keys), cloneEff :: (vEffs ++ oEffs))
      | Option.some existingContent =>
        match CompareYAML (w.parseYaml existingContent) (w.parseYaml yamlOutput) with
        | Except.error e =>
          (Except.error ("failed to compare YAML: " ++ e), cloneEff :: (vEffs ++ oEffs))
        | Except.ok changes =>
          (Except.ok (GroupResult.previewDiff changes), cloneEff :: (vEffs ++ oEffs))
  else
    match ExtractKeys (w.parseYaml yamlOutput) with
    | Except.error e => (Except.error ("failed to extract keys: " ++ e), cloneEff :: vEffs)
    | Except.ok keys =>
    match cloneOutputRepository w group with
    | (Except.error e, oEffs) => (Except.error e, cloneEff :: (vEffs ++ oEffs))
    | (Except.ok outputRepoPath, oEffs) =>
    match (if group.outputRepo.path = "" then Except.ok ()
           else w.mkdirAll (joinPath outputRepoPath group.outputRepo.path)) with
    | Except.error e =>
      (Except.error ("failed to create output directory: " ++ e), cloneEff :: (vEffs ++ oEffs))
    | Except.ok _ =>
    let outputPath := outputPathOf group outputRepoPath
    let existing := w.readFile outputPath
    let fileExists := existing.isSome
    let contentChanged := match existing with
      | Option.some e => !(e == yamlOutput)
      | Option.none => true
    match w.writeFile outputPath yamlOutput with
    | Except.error e =>
      (Except.error ("failed to write YAML file: " ++ e),
       cloneEff :: (vEffs ++ oEffs) ++ [GitEffect.writeFile outputPath yamlOutput])
    | Except.ok _ =>
    let finalCommitMessage :=
      finalCommitMessageOf commitMessage repo.owner repo.name templateRepoBranch groupName
    match w.commitAndPush outputRepoPath finalCommitMessage with
    | Except.error e =>
      (Except.error ("failed to commit and push changes: " ++ e),
       cloneEff :: (vEffs ++ oEffs) ++
         [GitEffect.writeFile outputPath yamlOutput,
          GitEffect.commitAndPush outputRepoPath finalCommitMessage])
    | Except.ok _ =>
      let responseMessage :=
        if !contentChanged && fileExists then
          "No changes detected. The generated content is identical to the existing file."
        else "Changes committed and pushed successfully"
      (Except.ok (GroupResult.committed keys responseMessage contentChanged),
       cloneEff :: (vEffs ++ oEffs) ++
         [GitEffect.writeFile outputPath yamlOutput,
          GitEffect.commitAndPush outputRepoPath finalCommitMessage])

/-- One entry of the per-group results map: the group's outcome, or its
error captured as data. -/
inductive GroupEntry where
  | ok (r : GroupResult)
  | err (e : String)

/-- The group loop shared by PreviewChanges and CommitChanges: process the
selected groups sequentially, recording each group's outcome or error. -/
def runGroups (process : String → Except String GroupResult) :
    List String → List (String × GroupEntry)
  | [] => []
  | g :: rest =>
    (g, match process g with
        | Except.ok r => GroupEntry.ok r
        | Except.error e => GroupEntry.err e) :: runGroups process rest

/-- Group selection: an empty request selects every configured group. -/
def selectGroups (groups : List ConfigGroup) (requested : List String) : List String :=
  if requested.isEmpty then groups.map ConfigGroup.name else requested

/-- An HTTP handler outcome. -/
inductive HandlerResponse where
  | badRequest (msg : String)
  | serverError (msg : String)
  | ok (results : List (String × GroupEntry)) (branch : String)

/-- PreviewChanges from routes.go. -/
def PreviewChanges (w : World) (groups : List ConfigGroup) (branch : String)
    (requested : List String) : HandlerResponse :=
  if branch = "" then HandlerResponse.badRequest "Branch is required"
  else
    let selected := selectGroups groups requested
    if selected.isEmpty then HandlerResponse.serverError "No configuration groups available"
    else
      HandlerResponse.ok
        (runGroups (fun g => (processConfigGroup w groups g branch "" true).1) selected)
        branch

/-- CommitChanges from routes.go. -/
def CommitChanges (w : World) (groups : List ConfigGroup) (branch message : String)
    (requested : List String) : HandlerResponse :=
  if branch = "" then HandlerResponse.badRequest "Branch is required"
  else if message = "" then HandlerResponse.badRequest "Message is required"
  else
    let selected := selectGroups groups requested
    if selected.isEmpty then HandlerResponse.serverError "No configuration groups available"
    else
      HandlerResponse.ok
        (runGroups (fun g => (processConfigGroup w groups g branch message false).1) selected)
        branch

/-! ### C7, C8: the commit path -/

/-- Full characterization of a commit run in which every external call
succeeds: the result and the exact effect trace. -/
theorem processConfigGroup_commit_run
    (w : World) (groups : List ConfigGroup) (groupName branch cm : String)
    (group : ConfigGroup) (repo : RepoInfo) (valuesPaths : List String)
    (vEffs : List GitEffect) (rendered : Bytes) (keys : KeyTree)
    (outputRepoPath : String) (oEffs : List GitEffect)
    (hfind : findConfigGroup groups groupName = Except.ok group)
    (hrepo : w.getRepository = Except.ok repo)
    (hclone : w.cloneRepository repo.cloneURL
        (GetLocalRepoPath w.tempDir repo.owner repo.name branch) branch = Except.ok ())
    (hchart : w.statExists
        (joinPath (GetLocalRepoPath w.tempDir repo.owner repo.name branch) "Chart.yaml") = true)
    (htpl : w.statExists
        (joinPath (GetLocalRepoPath w.tempDir repo.owner repo.name branch) "templates") = true)
    (hvals : cloneValuesList w group.valuesRepos = (Except.ok valuesPaths, vEffs))
    (hne : valuesPaths.isEmpty = false)
    (hhelm : w.templateChart (GetLocalRepoPath w.tempDir repo.owner repo.name branch)
        valuesPaths = Except.ok rendered)
    (hkeys : ExtractKeys (w.parseYaml rendered) = Except.ok keys)
    (hout : cloneOutputRepository w group = (Except.ok outputRepoPath, oEffs))
    (hmk : (if group.outputRepo.path = "" then Except.ok ()
        else w.mkdirAll (joinPath outputRepoPath group.outputRepo.path)) = Except.ok ())
    (hwrite : w.writeFile (outputPathOf group outputRepoPath) rendered = Except.ok ())
    (hpush : w.commitAndPush outputRepoPath
        (finalCommitMessageOf cm repo.owner repo.name branch groupName) = Except.ok ()) :
    processConfigGroup w groups groupName branch cm false =
      (Except.ok (GroupResult.committed keys
          (if !(match w.readFile (outputPathOf group outputRepoPath) with
                | Option.some e => !(e == rendered)
                | Option.none => true)
              && (w.readFile (outputPathOf group outputRepoPath)).isSome then
            "No changes detected. The generated content is identical to the existing file."
          else "Changes committed and pushed successfully")
          (match w.readFile (outputPathOf group outputRepoPath) with
           | Option.some e => !(e == rendered)
           | Option.none => true)),
       GitEffect.cloneRepo repo.cloneURL
           (GetLocalRepoPath w.tempDir repo.owner repo.name branch) branch ::
         (vEffs ++ oEffs) ++
         [GitEffect.writeFile (outputPathOf group outputRepoPath) rendered,
          GitEffect.commitAndPush outputRepoPath
            (finalCommitMessageOf cm repo.owner repo.name branch groupName)]) := by
  simp only [processConfigGroup, hfind, hrepo, hclone, hchart, htpl, hvals, hne, hhelm,
    hkeys, hout, hmk, hwrite, hpush, Bool.not_true, Bool.false_eq_true, if_false,
    Bool.not_false, if_true]

/-- C7: in commit mode, when the output file already exists, contentChanged
is the byte-for-byte comparison of the existing file with the rendered
bytes; when they are equal the result carries contentChanged = false and the
explicit no-changes message; and the commit-and-push is attempted in either
case. -/
theorem commit_mode_contentChanged
    (w : World) (groups : List ConfigGroup) (groupName branch cm : String)
    (group : ConfigGroup) (repo : RepoInfo) (valuesPaths : List String)
    (vEffs : List GitEffect) (rendered existing : Bytes) (keys : KeyTree)
    (outputRepoPath : String) (oEffs : List GitEffect)
    (hfind : findConfigGroup groups groupName = Except.ok group)
    (hrepo : w.getRepository = Except.ok repo)
    (hclone : w.cloneRepository repo.cloneURL
        (GetLocalRepoPath w.tempDir repo.owner repo.name branch) branch = Except.ok ())
    (hchart : w.statExists
        (joinPath (GetLocalRepoPath w.tempDir repo.owner repo.name branch) "Chart.yaml") = true)
    (htpl : w.statExists
        (joinPath (GetLocalRepoPath w.tempDir repo.owner repo.name branch) "templates") = true)
    (hvals : cloneValuesList w group.valuesRepos = (Except.ok valuesPaths, vEffs))
    (hne : valuesPaths.isEmpty = false)
    (hhelm : w.templateChart (GetLocalRepoPath w.tempDir repo.owner repo.name branch)
        valuesPaths = Except.ok rendered)
    (hkeys : ExtractKeys (w.parseYaml rendered) = Except.ok keys)
    (hout : cloneOutputRepository w group = (Except.ok outputRepoPath, oEffs))
    (hmk : (if group.outputRepo.path = "" then Except.ok ()
        else w.mkdirAll (joinPath outputRepoPath group.outputRepo.path)) = Except.ok ())
    (hread : w.readFile (outputPathOf group outputRepoPath) = Option.some existing)
    (hwrite : w.writeFile (outputPathOf group outputRepoPath) rendered = Except.ok ())
    (hpush : w.commitAndPush outputRepoPath
        (finalCommitMessageOf cm repo.owner repo.name branch groupName) = Except.ok ()) :
    (processConfigGroup w groups groupName branch cm false).1 =
      Except.ok (GroupResult.committed keys
        (if existing == rendered then
          "No changes detected. The generated content is identical to the existing file."
        else "Changes committed and pushed successfully")
        (!(existing == rendered)))
  ∧ GitEffect.commitAndPush outputRepoPath
      (finalCommitMessageOf cm repo.owner repo.name branch groupName) ∈
    (processConfigGroup w groups groupName branch cm false).2 := by
  have hrun := processConfigGroup_commit_run w groups groupName branch cm group repo
    valuesPaths vEffs rendered keys outputRepoPath oEffs hfind hrepo hclone hchart htpl
    hvals hne hhelm hkeys hout hmk hwrite hpush
  rw [hrun]
  constructor
  · simp [hread]
  · simp

/-- A world in which every external call succeeds, the chart renders to the
bytes `[1, 2]`, the output file already holds exactly `[1, 2]`, and the
rendered YAML parses to the empty document. -/
def wCommit : World where
  tempDir := "/tmp"
  getRepository := Except.ok ⟨"https://github.com/o/r.git", "o", "r"⟩
  cloneRepository := fun _ _ _ => Except.ok ()
  statExists := fun _ => true
  templateChart := fun _ _ => Except.ok [1, 2]
  readFile := fun _ => Option.some [1, 2]
  mkdirAll := fun _ => Except.ok ()
  writeFile := fun _ _ => Except.ok ()
  commitAndPush := fun _ _ => Except.ok ()
  parseYaml := fun _ => YamlInput.empty

/-- One configured group whose output target is the same repository `o/r`
that the source (template) repository lives in. -/
def groupsEx : List ConfigGroup :=
  [⟨"prod", [⟨"o", "vals", "values.yaml", "main"⟩], ⟨"o", "r", "", "", "main"⟩⟩]

/-- Witness for C7: with identical existing and rendered bytes, the commit
run reports contentChanged = false and the no-changes message. -/
theorem commit_mode_contentChanged_witness :
    (processConfigGroup wCommit groupsEx "prod" "main" "m" false).1 =
      Except.ok (GroupResult.committed (extractMap [])
        "No changes detected. The generated content is identical to the existing file."
        false) :=
  (commit_mode_contentChanged wCommit groupsEx "prod" "main" "m"
    ⟨"prod", [⟨"o", "vals", "values.yaml", "main"⟩], ⟨"o", "r", "", "", "main"⟩⟩
    ⟨"https://github.com/o/r.git", "o", "r"⟩
    _ _ [1, 2] [1, 2] (extractMap []) _ _
    rfl rfl rfl rfl rfl rfl rfl rfl rfl rfl rfl rfl rfl rfl).1

/-- The messages of the commit-and-push attempts in an effect trace. -/
def commitMessagesOf (effs : List GitEffect) : List String :=
  effs.filterMap fun e =>
    match e with
    | GitEffect.commitAndPush _ m => Option.some m
    | _ => Option.none

theorem cloneValuesList_effects_clones (w : World) (vrs : List ValuesRepo) :
    (cloneValuesList w vrs).2.all GitEffect.isClone = true := by
  induction vrs with
  | nil => rfl
  | cons vr rest ih =>
    simp only [cloneValuesList]
    split
    · rfl
    · rcases hrest : cloneValuesList w rest with ⟨res, effs⟩
      rw [hrest] at ih
      simpa [List.all_cons, GitEffect.isClone] using ih

theorem cloneOutputRepository_effects_clones (w : World) (g : ConfigGroup) :
    (cloneOutputRepository w g).2.all GitEffect.isClone = true := by
  simp only [cloneOutputRepository]
  split <;> rfl

theorem commitMessagesOf_clones (effs : List GitEffect)
    (h : effs.all GitEffect.isClone = true) : commitMessagesOf effs = [] := by
  induction effs with
  | nil => rfl
  | cons e rest ih =>
    simp only [List.all_cons, Bool.and_eq_true] at h
    cases e with
    | cloneRepo u d b => simpa [commitMessagesOf, List.filterMap_cons] using ih h.2
    | writeFile p c => simp [GitEffect.isClone] at h
    | commitAndPush p m => simp [GitEffect.isClone] at h

/-- Counterexample to C8 as stated: here the group's output target is the
source repository itself (owner `o`, repo `r` on both sides), yet the
operator's commit message `m` is still annotated with the source
owner/repo/branch/group instead of being used unmodified. -/
theorem commit_message_annotated_cex :
    (groupsEx.map fun g => (g.outputRepo.owner, g.outputRepo.repo)) = [("o", "r")] ∧
    wCommit.getRepository =
      Except.ok ⟨"https://github.com/o/r.git", "o", "r"⟩ ∧
    commitMessagesOf (processConfigGroup wCommit groupsEx "prod" "main" "m" false).2 =
      ["m (generated from o/r branch: main, group: prod)"] ∧
    "m (generated from o/r branch: main, group: prod)" ≠ "m" :=
  ⟨rfl, rfl, rfl, by decide⟩

/-- C8 (amended): in commit mode the pipeline commits with
`finalCommitMessageOf`, which annotates the operator message with the source
owner/repo/branch/group whenever the message is non-empty — regardless of
whether the output target repository differs from the source repository —
and passes the empty message through unmodified. -/
theorem commit_message_annotated
    (w : World) (groups : List ConfigGroup) (groupName branch cm : String)
    (group : ConfigGroup) (repo : RepoInfo) (valuesPaths : List String)
    (vEffs : List GitEffect) (rendered : Bytes) (keys : KeyTree)
    (outputRepoPath : String) (oEffs : List GitEffect)
    (hfind : findConfigGroup groups groupName = Except.ok group)
    (hrepo : w.getRepository = Except.ok repo)
    (hclone : w.cloneRepository repo.cloneURL
        (GetLocalRepoPath w.tempDir repo.owner repo.name branch) branch = Except.ok ())
    (hchart : w.statExists
        (joinPath (GetLocalRepoPath w.tempDir repo.owner repo.name branch) "Chart.yaml") = true)
    (htpl : w.statExists
        (joinPath (GetLocalRepoPath w.tempDir repo.owner repo.name branch) "templates") = true)
    (hvals : cloneValuesList w group.valuesRepos = (Except.ok valuesPaths, vEffs))
    (hne : valuesPaths.isEmpty = false)
    (hhelm : w.templateChart (GetLocalRepoPath w.tempDir repo.owner repo.name branch)
        valuesPaths = Except.ok rendered)
    (hkeys : ExtractKeys (w.parseYaml rendered) = Except.ok keys)
    (hout : cloneOutputRepository w group = (Except.ok outputRepoPath, oEffs))
    (hmk : (if group.outputRepo.path = "" then Except.ok ()
        else w.mkdirAll (joinPath outputRepoPath group.outputRepo.path)) = Except.ok ())
    (hwrite : w.writeFile (outputPathOf group outputRepoPath) rendered = Except.ok ())
    (hpush : w.commitAndPush outputRepoPath
        (finalCommitMessageOf cm repo.owner repo.name branch groupName) = Except.ok ()) :
    commitMessagesOf (processConfigGroup w groups groupName branch cm false).2 =
      [finalCommitMessageOf cm repo.owner repo.name branch groupName]
  ∧ (∀ cm' o n b g, cm' ≠ "" →
      finalCommitMessageOf cm' o n b g =
        cm' ++ " (generated from " ++ o ++ "/" ++ n ++ " branch: " ++ b ++
          ", group: " ++ g ++ ")")
  ∧ (∀ o n b g, finalCommitMessageOf "" o n b g = "") := by
  have hrun := processConfigGroup_commit_run w groups groupName branch cm group repo
    valuesPaths vEffs rendered keys outputRepoPath oEffs hfind hrepo hclone hchart htpl
    hvals hne hhelm hkeys hout hmk hwrite hpush
  refine ⟨?_, ?_, ?_⟩
  · rw [hrun]
    have hv : commitMessagesOf vEffs = [] := by
      have h2 := commitMessagesOf_clones (cloneValuesList w group.valuesRepos).2
        (cloneValuesList_effects_clones w group.valuesRepos)
      rw [hvals] at h2
      exact h2
    have ho : commitMessagesOf oEffs = [] := by
      have h2 := commitMessagesOf_clones (cloneOutputRepository w group).2
        (cloneOutputRepository_effects_clones w group)
      rw [hout] at h2
      exact h2
    simp only [commitMessagesOf, List.filterMap_cons, List.filterMap_append] at hv ho ⊢
    simp [hv, ho]
  · intro cm' o n b g h
    simp [finalCommitMessageOf, h]
  · intro o n b g
    simp [finalCommitMessageOf]

/-- Witness for C8 (amended) on the concrete same-repository setup. -/
theorem commit_message_annotated_witness :
    commitMessagesOf (processConfigGroup wCommit groupsEx "prod" "main" "m" false).2 =
      [finalCommitMessageOf "m" "o" "r" "main" "prod"] :=
  (commit_message_annotated wCommit groupsEx "prod" "main" "m"
    ⟨"prod", [⟨"o", "vals", "values.yaml", "main"⟩], ⟨"o", "r", "", "", "main"⟩⟩
    ⟨"https://github.com/o/r.git", "o", "r"⟩ _ _ [1, 2] (extractMap []) _ _
    rfl rfl rfl rfl rfl rfl rfl rfl rfl rfl rfl rfl rfl).1

/-! ### C9: per-group error isolation in multi-group runs -/

theorem runGroups_map_fst (process : String → Except String GroupResult)
    (names : List String) : (runGroups process names).map Prod.fst = names := by
  induction names with
  | nil => rfl
  | cons g rest ih => simp [runGroups, ih]

theorem runGroups_mem_err (process : String → Except String GroupResult)
    {names : List String} {g : String} (hg : g ∈ names) {e : String}
    (he : process g = Except.error e) :
    (g, GroupEntry.err e) ∈ runGroups process names := by
  induction names with
  | nil => cases hg
  | cons a rest ih =>
    rcases List.mem_cons.mp hg with h | h
    · subst h
      simp [runGroups, he]
    · exact List.mem_cons_of_mem _ (ih h)

theorem runGroups_mem_ok (process : String → Except String GroupResult)
    {names : List String} {g : String} (hg : g ∈ names) {r : GroupResult}
    (hr : process g = Except.ok r) :
    (g, GroupEntry.ok r) ∈ runGroups process names := by
  induction names with
  | nil => cases hg
  | cons a rest ih =>
    rcases List.mem_cons.mp hg with h | h
    · subst h
      simp [runGroups, hr]
    · exact List.mem_cons_of_mem _ (ih h)

/-- C9: for every multi-group run, preview or commit, the handler responds
with the per-group results map (never a request-level failure caused by a
group); the map has one entry per selected group in order, a group whose
pipeline fails is recorded as that group's error entry, and a group whose
pipeline succeeds is recorded with its result — each independently of the
other groups' outcomes. -/
theorem group_error_isolation (w : World) (groups : List ConfigGroup)
    (branch message : String) (requested : List String)
    (hb : branch ≠ "") (hm : message ≠ "")
    (hsel : (selectGroups groups requested).isEmpty = false) :
    (PreviewChanges w groups branch requested =
        HandlerResponse.ok
          (runGroups (fun g => (processConfigGroup w groups g branch "" true).1)
            (selectGroups groups requested)) branch
      ∧ (runGroups (fun g => (processConfigGroup w groups g branch "" true).1)
            (selectGroups groups requested)).map Prod.fst = selectGroups groups requested
      ∧ ∀ g ∈ selectGroups groups requested,
          (∀ e, (processConfigGroup w groups g branch "" true).1 = Except.error e →
            (g, GroupEntry.err e) ∈
              runGroups (fun g => (processConfigGroup w groups g branch "" true).1)
                (selectGroups groups requested))
          ∧ (∀ r, (processConfigGroup w groups g branch "" true).1 = Except.ok r →
            (g, GroupEntry.ok r) ∈
              runGroups (fun g => (processConfigGroup w groups g branch "" true).1)
                (selectGroups groups requested)))
  ∧ (CommitChanges w groups branch message requested =
        HandlerResponse.ok
          (runGroups (fun g => (processConfigGroup w groups g branch message false).1)
            (selectGroups groups requested)) branch
      ∧ (runGroups (fun g => (processConfigGroup w groups g branch message false).1)
            (selectGroups groups requested)).map Prod.fst = selectGroups groups requested
      ∧ ∀ g ∈ selectGroups groups requested,
          (∀ e, (processConfigGroup w groups g branch message false).1 = Except.error e →
            (g, GroupEntry.err e) ∈
              runGroups (fun g => (processConfigGroup w groups g branch message false).1)
                (selectGroups groups requested))
          ∧ (∀ r, (processConfigGroup w groups g branch message false).1 = Except.ok r →
            (g, GroupEntry.ok r) ∈
              runGroups (fun g => (processConfigGroup w groups g branch message false).1)
                (selectGroups groups requested))) := by
  constructor
  · refine ⟨?_, runGroups_map_fst _ _, ?_⟩
    · simp [PreviewChanges, hb, hsel]
    · intro g hg
      exact ⟨fun e he => runGroups_mem_err _ hg he, fun r hr => runGroups_mem_ok _ hg hr⟩
  · refine ⟨?_, runGroups_map_fst _ _, ?_⟩
    · simp [CommitChanges, hb, hm, hsel]
    · intro g hg
      exact ⟨fun e he => runGroups_mem_err _ hg he, fun r hr => runGroups_mem_ok _ hg hr⟩

/-- A world in which the GitHub repository lookup fails, so every group's
pipeline fails. -/
def wFail : World :=
  { wCommit with getRepository := Except.error "boom" }

/-- Witness for C9: with a failing world, the preview handler still responds
with the results map and the failing group appears as an error entry. -/
theorem group_error_isolation_witness :
    PreviewChanges wFail groupsEx "main" [] =
      HandlerResponse.ok
        (runGroups (fun g => (processConfigGroup wFail groupsEx g "main" "" true).1)
          (selectGroups groupsEx [])) "main" ∧
    ("prod", GroupEntry.err "failed to get repository information: boom") ∈
      runGroups (fun g => (processConfigGroup wFail groupsEx g "main" "" true).1)
        (selectGroups groupsEx []) :=
  have h := group_error_isolation wFail groupsEx "main" "x" [] (by decide) (by decide) rfl
  ⟨h.1.1, ((h.1.2.2 "prod" (by simp [selectGroups, groupsEx])).1 _ rfl)⟩

/-! ### C10: preview mode performs no write, commit, or push -/

/-- C10: in preview mode, every effect the pipeline attempts is a repository
checkout — no file write and no commit-and-push ever occurs, so the output
target's checkout is left exactly as checked out. -/
theorem preview_no_mutation (w : World) (groups : List ConfigGroup)
    (groupName branch cm : String) :
    ((processConfigGroup w groups groupName branch cm true).2.all GitEffect.isClone) = true := by
  simp only [processConfigGroup]
  cases hf : findConfigGroup groups groupName with
  | error e => rfl
  | ok group =>
  cases hr : w.getRepository with
  | error e => rfl
  | ok repo =>
  cases hc : w.cloneRepository repo.cloneURL
      (GetLocalRepoPath w.tempDir repo.owner repo.name branch) branch with
  | error e => simp [hc, GitEffect.isClone]
  | ok u =>
  cases u
  by_cases h1 : w.statExists
      (joinPath (GetLocalRepoPath w.tempDir repo.owner repo.name branch) "Chart.yaml") = true
  case neg => simp [hc, h1, GitEffect.isClone]
  case pos =>
  by_cases h2 : w.statExists
      (joinPath (GetLocalRepoPath w.tempDir repo.owner repo.name branch) "templates") = true
  case neg => simp [hc, h1, h2, GitEffect.isClone]
  case pos =>
  have hvall := cloneValuesList_effects_clones w group.valuesRepos
  rcases hv : cloneValuesList w group.valuesRepos with ⟨res, vEffs⟩
  rw [hv] at hvall
  simp only at hvall
  cases res with
  | error e => simp [hc, h1, h2, hv, List.all_cons, GitEffect.isClone, hvall]
  | ok valuesPaths =>
  by_cases h3 : valuesPaths.isEmpty = true
  case pos => simp [hc, h1, h2, hv, h3, List.all_cons, GitEffect.isClone, hvall]
  case neg =>
  cases ht : w.templateChart (GetLocalRepoPath w.tempDir repo.owner repo.name branch)
      valuesPaths with
  | error e => simp [hc, h1, h2, hv, h3, ht, List.all_cons, GitEffect.isClone, hvall]
  | ok yamlOutput =>
  have hoall := cloneOutputRepository_effects_clones w group
  rcases ho : cloneOutputRepository w group with ⟨ores, oEffs⟩
  rw [ho] at hoall
  simp only at hoall
  cases ores with
  | error e =>
    simp [hc, h1, h2, hv, h3, ht, ho, List.all_cons, List.all_append, GitEffect.isClone,
      hvall, hoall]
  | ok outputRepoPath =>
  cases hrd : w.readFile (outputPathOf group outputRepoPath) with
  | none =>
    cases hk : ExtractKeys (w.parseYaml yamlOutput) with
    | error e =>
      simp [hc, h1, h2, hv, h3, ht, ho, hrd, hk, List.all_cons, List.all_append,
        GitEffect.isClone, hvall, hoall]
    | ok keys =>
      simp [hc, h1, h2, hv, h3, ht, ho, hrd, hk, List.all_cons, List.all_append,
        GitEffect.isClone, hvall, hoall]
  | some existingContent =>
    cases hcmp : CompareYAML (w.parseYaml existingContent) (w.parseYaml yamlOutput) with
    | error e =>
      simp [hc, h1, h2, hv, h3, ht, ho, hrd, hcmp, List.all_cons, List.all_append,
        GitEffect.isClone, hvall, hoall]
    | ok changes =>
      simp [hc, h1, h2, hv, h3, ht, ho, hrd, hcmp, List.all_cons, List.all_append,
        GitEffect.isClone, hvall, hoall]

end Pipeline
